import Mathlib

/-!
Verification of the keyboard-shortcut engine of `use-hotkeys`.

JavaScript strings are modelled as `List Char`; JS `toLowerCase` is modelled
on the ASCII range (the only range the engine's tokens use).  Each definition
below is a shallow embedding of the TypeScript function of the same name.
-/

namespace UseKbd

/-- A JavaScript string, modelled as its list of characters. -/
abbrev JsStr := List Char

/-- ASCII lowercasing of one character, the model of what JS `toLowerCase`
does on the engine's tokens. -/
def lowerChar (c : Char) : Char :=
  if 65 ≤ c.toNat ∧ c.toNat ≤ 90 then Char.ofNat (c.toNat + 32) else c

/-- Model of JS `String.prototype.toLowerCase`. -/
def toLowerStr (s : JsStr) : JsStr := s.map lowerChar

/-- ASCII uppercasing of one character (JS `toUpperCase`). -/
def upperChar (c : Char) : Char :=
  if 97 ≤ c.toNat ∧ c.toNat ≤ 122 then Char.ofNat (c.toNat - 32) else c

/-- Model of JS `String.prototype.toUpperCase`. -/
def toUpperStr (s : JsStr) : JsStr := s.map upperChar

/-- Whitespace, as matched by JS `\s` and `trim` on the ASCII range. -/
def isWs (c : Char) : Bool :=
  c = ' ' || c = '\t' || c = '\n' || c = '\r' || c.toNat = 11 || c.toNat = 12

/-- Model of JS `String.prototype.trim`. -/
def jsTrim (s : JsStr) : JsStr :=
  ((s.dropWhile isWs).reverse.dropWhile isWs).reverse

/-- Accumulator loop of `splitOnChar`. -/
def splitAux (sep : Char) : List Char → List Char → List JsStr
  | [], acc => [acc.reverse]
  | c :: cs, acc =>
    if c = sep then acc.reverse :: splitAux sep cs []
    else splitAux sep cs (c :: acc)

/-- Model of JS `str.split(sep)` for a one-character separator: empty
fragments between adjacent separators are kept, and the empty string
splits to `[""]`. -/
def splitOnChar (sep : Char) (s : JsStr) : List JsStr := splitAux sep s []

/-- Model of JS `arr.join(sep)` for a one-character separator. -/
def joinSep (sep : Char) : List JsStr → JsStr
  | [] => []
  | [t] => t
  | t :: u :: ts => t ++ sep :: joinSep sep (u :: ts)

/-- Accumulator loop of `jsSplitWs`; the boolean records whether the previous
character was whitespace (i.e. we are inside a separator run). -/
def splitWsAux : List Char → List Char → Bool → List JsStr
  | [], acc, _ => [acc.reverse]
  | c :: cs, acc, prevWs =>
    if isWs c then
      if prevWs then splitWsAux cs [] true
      else acc.reverse :: splitWsAux cs [] true
    else splitWsAux cs (c :: acc) false

/-- Model of JS `str.split(/\s+/)`: a maximal whitespace run is one
separator. -/
def jsSplitWs (s : JsStr) : List JsStr := splitWsAux s [] false

/-- Model of JS `a.startsWith(p)`. -/
def strStartsWith : JsStr → JsStr → Bool
  | _, [] => true
  | [], _ :: _ => false
  | c :: cs, p :: ps => c = p && strStartsWith cs ps

/-! ## Data model (`src/types.ts`) -/

/-- The `modifiers` record of a `KeyCombination`. -/
structure Modifiers where
  ctrl : Bool
  alt : Bool
  shift : Bool
  meta : Bool
deriving DecidableEq

/-- `KeyCombination`: one key plus a modifier set. -/
structure KeyCombination where
  key : JsStr
  modifiers : Modifiers
deriving DecidableEq

/-- `HotkeySequence`: ordered list of combinations. -/
abbrev HotkeySequence := List KeyCombination

/-- `KeyCombinationDisplay`: display string, canonical id, sequence flag. -/
structure KeyCombinationDisplay where
  display : JsStr
  id : JsStr
  isSequence : Bool
deriving DecidableEq

/-! ## `utils.ts` -/

/-- The special-key table of `normalizeKey`. -/
def keyMapPairs : List (JsStr × JsStr) :=
  [ (" ".toList, "space".toList)
  , ("Escape".toList, "escape".toList)
  , ("Enter".toList, "enter".toList)
  , ("Tab".toList, "tab".toList)
  , ("Backspace".toList, "backspace".toList)
  , ("Delete".toList, "delete".toList)
  , ("ArrowUp".toList, "arrowup".toList)
  , ("ArrowDown".toList, "arrowdown".toList)
  , ("ArrowLeft".toList, "arrowleft".toList)
  , ("ArrowRight".toList, "arrowright".toList)
  , ("Home".toList, "home".toList)
  , ("End".toList, "end".toList)
  , ("PageUp".toList, "pageup".toList)
  , ("PageDown".toList, "pagedown".toList) ]

/-- `0`–`9`, as matched by `\d`. -/
def isDigitChar (c : Char) : Bool := 48 ≤ c.toNat && c.toNat ≤ 57

/-- The test `/^F\d{1,2}$/.test(key)` of `normalizeKey`. -/
def isFunctionKeyStr (s : JsStr) : Bool :=
  match s with
  | 'F' :: rest => (rest.length = 1 || rest.length = 2) && rest.all isDigitChar
  | _ => false

/-- The test `/^f\d{1,2}$/.test(key)` of `formatKeyForDisplay`. -/
def isLowerFunctionKeyStr (s : JsStr) : Bool :=
  match s with
  | 'f' :: rest => (rest.length = 1 || rest.length = 2) && rest.all isDigitChar
  | _ => false

/-- `normalizeKey` (`src/utils.ts`): special-key table first, then
single characters, function keys and everything else lowercase. -/
def normalizeKey (key : JsStr) : JsStr :=
  match keyMapPairs.lookup key with
  | some v => v
  | none =>
    if key.length = 1 then toLowerStr key
    else if isFunctionKeyStr key then toLowerStr key
    else toLowerStr key

/-! ## Remaining `utils.ts` definitions -/

/-- The display table of `formatKeyForDisplay`. -/
def displayMapPairs : List (JsStr × JsStr) :=
  [ ("space".toList, "Space".toList)
  , ("escape".toList, "Esc".toList)
  , ("enter".toList, "↵".toList)
  , ("tab".toList, "Tab".toList)
  , ("backspace".toList, "⌫".toList)
  , ("delete".toList, "Del".toList)
  , ("arrowup".toList, "↑".toList)
  , ("arrowdown".toList, "↓".toList)
  , ("arrowleft".toList, "←".toList)
  , ("arrowright".toList, "→".toList)
  , ("home".toList, "Home".toList)
  , ("end".toList, "End".toList)
  , ("pageup".toList, "PgUp".toList)
  , ("pagedown".toList, "PgDn".toList) ]

/-- `formatKeyForDisplay` (`src/utils.ts`). -/
def formatKeyForDisplay (key : JsStr) : JsStr :=
  match displayMapPairs.lookup key with
  | some v => v
  | none =>
    if isLowerFunctionKeyStr key then toUpperStr key
    else if key.length = 1 then toUpperStr key
    else key

def ctrlTok : JsStr := "ctrl".toList
def controlTok : JsStr := "control".toList
def altTok : JsStr := "alt".toList
def optionTok : JsStr := "option".toList
def shiftTok : JsStr := "shift".toList
def metaTok : JsStr := "meta".toList
def cmdTok : JsStr := "cmd".toList
def commandTok : JsStr := "command".toList

/-- `formatSingleCombination` (`src/utils.ts`): the `(display, id)` pair for
one combination; `mac` is the result of `isMac()` at call time. -/
def formatSingleCombination (mac : Bool) (combo : KeyCombination) : JsStr × JsStr :=
  let parts : List JsStr :=
    (if combo.modifiers.ctrl then [ if mac then "⌃".toList else "Ctrl".toList ] else []) ++
    (if combo.modifiers.meta then [ if mac then "⌘".toList else "Win".toList ] else []) ++
    (if combo.modifiers.alt then [ if mac then "⌥".toList else "Alt".toList ] else []) ++
    (if combo.modifiers.shift then [ if mac then "⇧".toList else "Shift".toList ] else []) ++
    [ formatKeyForDisplay combo.key ]
  let idParts : List JsStr :=
    (if combo.modifiers.ctrl then [ ctrlTok ] else []) ++
    (if combo.modifiers.meta then [ metaTok ] else []) ++
    (if combo.modifiers.alt then [ altTok ] else []) ++
    (if combo.modifiers.shift then [ shiftTok ] else []) ++
    [ combo.key ]
  (if mac then parts.flatten else joinSep '+' parts, joinSep '+' idParts)

/-- `formatCombination` on a `HotkeySequence` (the array overload). -/
def formatCombination (mac : Bool) (input : HotkeySequence) : KeyCombinationDisplay :=
  match input with
  | [] => { display := [], id := [], isSequence := false }
  | [c] =>
    let single := formatSingleCombination mac c
    { display := single.1, id := single.2, isSequence := false }
  | cs =>
    let formatted := cs.map (formatSingleCombination mac)
    { display := joinSep ' ' (formatted.map Prod.fst)
    , id := joinSep ' ' (formatted.map Prod.snd)
    , isSequence := true }

/-- `formatCombination` on a single `KeyCombination` (the non-array overload). -/
def formatCombinationOne (mac : Bool) (combo : KeyCombination) : KeyCombinationDisplay :=
  let single := formatSingleCombination mac combo
  { display := single.1, id := single.2, isSequence := false }

/-- `isModifierKey` (`src/utils.ts`). -/
def modifierKeyNames : List JsStr :=
  [ "Control".toList, "Alt".toList, "Shift".toList, "Meta".toList ]

def isModifierKey (key : JsStr) : Bool := modifierKeyNames.contains key

/-- `SHIFTED_CHARS` (`src/utils.ts`): a set of one-character strings. -/
def shiftedChars : List JsStr :=
  [ "~".toList, "!".toList, "@".toList, "#".toList, "$".toList, "%".toList
  , "^".toList, "&".toList, "*".toList, "(".toList, ")".toList
  , "_".toList, "+".toList, "\x7b".toList, "\x7d".toList, "|".toList
  , ":".toList, "\"".toList, "<".toList, ">".toList, "?".toList ]

/-- `isShiftedChar` (`src/utils.ts`). -/
def isShiftedChar (key : JsStr) : Bool := shiftedChars.contains key

/-- The `parts` array of `parseSingleCombination`:
`str.toLowerCase().split('+')`. -/
def parseParts (str : JsStr) : List JsStr := splitOnChar '+' (toLowerStr str)

/-- `parseSingleCombination` (`src/utils.ts`): lowercase, split on `+`, the
last fragment is the key, the rest are matched against the modifier
aliases. -/
def parseSingleCombination (str : JsStr) : KeyCombination :=
  { key := (parseParts str).getLast?.getD []
  , modifiers :=
    { ctrl := (parseParts str).contains ctrlTok || (parseParts str).contains controlTok
    , alt := (parseParts str).contains altTok || (parseParts str).contains optionTok
    , shift := (parseParts str).contains shiftTok
    , meta := (parseParts str).contains metaTok || (parseParts str).contains cmdTok ||
        (parseParts str).contains commandTok } }

/-- `parseHotkeyString` (`src/utils.ts`): empty/whitespace-only parses to the
empty sequence, otherwise split on whitespace runs and parse each
fragment. -/
def parseHotkeyString (hotkeyStr : JsStr) : HotkeySequence :=
  if jsTrim hotkeyStr = [] then []
  else (jsSplitWs (jsTrim hotkeyStr)).map parseSingleCombination

/-- `combinationsEqual` (`src/utils.ts`). -/
def combinationsEqual (a b : KeyCombination) : Bool :=
  a.key == b.key &&
  a.modifiers.ctrl == b.modifiers.ctrl &&
  a.modifiers.alt == b.modifiers.alt &&
  a.modifiers.shift == b.modifiers.shift &&
  a.modifiers.meta == b.modifiers.meta

/-- `isPrefix` (`src/utils.ts`): sequence `a` is a strict, combo-wise-equal
leading segment of sequence `b`. -/
def isPrefixSeq (a b : HotkeySequence) : Bool :=
  if b.length ≤ a.length then false
  else (List.zip a b).all fun p => combinationsEqual p.1 p.2

/-- `sequencesEqual` (`src/utils.ts`). -/
def sequencesEqual (a b : HotkeySequence) : Bool :=
  if a.length = b.length then (List.zip a b).all fun p => combinationsEqual p.1 p.2
  else false

/-! JS `Map<string, string[]>`, modelled as an insertion-ordered association
list: `set` of a present key updates it in place, of a new key appends. -/

abbrev JsMap := List (JsStr × List JsStr)

def mapGet (m : JsMap) (k : JsStr) : Option (List JsStr) :=
  (m.find? (fun p => p.1 == k)).map Prod.snd

def mapSet (m : JsMap) (k : JsStr) (v : List JsStr) : JsMap :=
  if m.any (fun p => p.1 == k) then
    m.map (fun p => if p.1 == k then (k, v) else p)
  else m ++ [(k, v)]

/-- A keymap value: `string | string[]`. -/
inductive StrOrArr where
  | one : JsStr → StrOrArr
  | many : List JsStr → StrOrArr
deriving DecidableEq

/-- `Array.isArray(actionOrActions) ? actionOrActions : [actionOrActions]`. -/
def toActionList : StrOrArr → List JsStr
  | .one s => [s]
  | .many l => l

/-- The binding table: the ordered entry list of the JS keymap object. -/
abbrev HotkeyMap := List (JsStr × StrOrArr)

/-- One element of the `entries` array of `findConflicts`. -/
structure ConflictEntry where
  key : JsStr
  seqn : HotkeySequence
  actions : List JsStr

def prefOfMark : JsStr := "prefix of: ".toList
def hasPrefMark : JsStr := "has prefix: ".toList
def prefOfTest : JsStr := "prefix of:".toList
def hasPrefTest : JsStr := "has prefix:".toList

/-- The body of the `isPrefix(a.sequence, b.sequence)` branch of
`findConflicts`: record `a` as a prefix of `b` on both keys, unless already
annotated. -/
def markPair (m : JsMap) (a b : ConflictEntry) : JsMap :=
  let existingA := (mapGet m a.key).getD []
  let m1 :=
    if existingA.contains (prefOfMark ++ b.key) then m
    else mapSet m a.key (existingA ++ a.actions ++ [ prefOfMark ++ b.key ])
  let existingB := (mapGet m1 b.key).getD []
  if existingB.contains (hasPrefMark ++ a.key) then m1
  else mapSet m1 b.key (existingB ++ b.actions ++ [ hasPrefMark ++ a.key ])

/-- One iteration of the inner pairwise loop of `findConflicts`. -/
def prefixStep (m : JsMap) (a b : ConflictEntry) : JsMap :=
  if isPrefixSeq a.seqn b.seqn then markPair m a b
  else if isPrefixSeq b.seqn a.seqn then markPair m b a
  else m

def prefixInner (a : ConflictEntry) : List ConflictEntry → JsMap → JsMap
  | [], m => m
  | b :: bs, m => prefixInner a bs (prefixStep m a b)

def prefixOuter : List ConflictEntry → JsMap → JsMap
  | [], m => m
  | a :: rest, m => prefixOuter rest (prefixInner a rest m)

/-- `findConflicts` (`src/utils.ts`): the duplicate grouping pass followed by
the pairwise prefix pass, both writing into one conflicts map. -/
def findConflicts (keymap : HotkeyMap) : JsMap :=
  let entries := keymap.map fun p =>
    ConflictEntry.mk p.1 (parseHotkeyString p.1) (toActionList p.2)
  let keyToActions := entries.foldl
    (fun m en => mapSet m en.key ((mapGet m en.key).getD [] ++ en.actions)) []
  let conflicts := keyToActions.foldl
    (fun acc p => if 1 < p.2.length then mapSet acc p.1 p.2 else acc) []
  prefixOuter entries conflicts

/-- `hasConflicts` (`src/utils.ts`). -/
def hasConflicts (keymap : HotkeyMap) : Bool := !(findConflicts keymap).isEmpty

/-- The `type` field of a `KeyConflict`. -/
inductive ConflictKind where
  | duplicate
  | seqPrefix
deriving DecidableEq

/-- `KeyConflict` (`src/utils.ts`). -/
structure KeyConflict where
  key : JsStr
  actions : List JsStr
  kind : ConflictKind
deriving DecidableEq

/-- `getConflictsArray` (`src/utils.ts`): flatten the conflicts map, dropping
the annotation strings from `actions` and classifying the kind by their
presence. -/
def getConflictsArray (keymap : HotkeyMap) : List KeyConflict :=
  (findConflicts keymap).map fun p =>
    { key := p.1
    , actions := p.2.filter fun a =>
        !(strStartsWith a prefOfTest) && !(strStartsWith a hasPrefTest)
    , kind :=
        if p.2.any (fun a => strStartsWith a prefOfTest || strStartsWith a hasPrefTest)
        then ConflictKind.seqPrefix else ConflictKind.duplicate }

/-! ## `useHotkeys` (the single-combination dispatcher) -/

/-- The fields of a keyboard event that the engine consumes.  `key` is the
raw `e.key`; `isFormTarget` models `e.target` being an input, textarea,
select or content-editable element. -/
structure KeyEvent where
  key : JsStr
  ctrlKey : Bool
  altKey : Bool
  shiftKey : Bool
  metaKey : Bool
  isFormTarget : Bool
deriving DecidableEq

/-- The result shape of `parseHotkey` (`src/useHotkeys.ts`). -/
structure ParsedHotkey where
  ctrl : Bool
  alt : Bool
  shift : Bool
  meta : Bool
  key : JsStr
deriving DecidableEq

/-- `parseHotkey` (`src/useHotkeys.ts`): lowercase, split on `+`, last
fragment is the key, earlier fragments are matched against the aliases. -/
def parseHotkey (hotkey : JsStr) : ParsedHotkey :=
  let parts := splitOnChar '+' (toLowerStr hotkey)
  { ctrl := parts.contains ctrlTok || parts.contains controlTok
  , alt := parts.contains altTok || parts.contains optionTok
  , shift := parts.contains shiftTok
  , meta := parts.contains metaTok || parts.contains cmdTok || parts.contains commandTok
  , key := parts.getLast?.getD [] }

/-- `matchesHotkey` (`src/useHotkeys.ts`): exact modifier equality except the
shift-leniency rule for shift-required characters. -/
def matchesHotkey (e : KeyEvent) (hotkey : ParsedHotkey) : Bool :=
  let eventKey := normalizeKey e.key
  let shiftMatches :=
    if isShiftedChar e.key then (if hotkey.shift then e.shiftKey else true)
    else e.shiftKey == hotkey.shift
  e.ctrlKey == hotkey.ctrl &&
  e.altKey == hotkey.alt &&
  shiftMatches &&
  e.metaKey == hotkey.meta &&
  eventKey == hotkey.key

/-- The keymap iteration of `handleKeyDown` (`src/useHotkeys.ts`).
`handlers` is the set of action names with a registered handler; the result
is the list of actions whose handler was executed (the loop returns after
the first one). -/
def dispatchLoop (e : KeyEvent) (handlers : List JsStr) : HotkeyMap → List JsStr
  | [] => []
  | (hotkeyStr, actionName) :: rest =>
    if matchesHotkey e (parseHotkey hotkeyStr) then
      match (toActionList actionName).find? (fun a => handlers.contains a) with
      | some a => [a]
      | none => dispatchLoop e handlers rest
    else dispatchLoop e handlers rest

/-- `handleKeyDown` (`src/useHotkeys.ts`): form-target and modifier-only
guards, then the keymap iteration. -/
def handleKeyDown (enableOnFormTags : Bool) (keymap : HotkeyMap)
    (handlers : List JsStr) (e : KeyEvent) : List JsStr :=
  if !enableOnFormTags && e.isFormTarget then []
  else if isModifierKey e.key then []
  else dispatchLoop e handlers keymap

/-! ## `useRecordHotkey` (the sequence-recording state machine,
`src/useRecordHotkey.ts`) -/

/-- The recorder's state: React state (`isRecording`, `sequence`,
`pendingKeys`, `activeKeys`) plus the refs (`pressedKeysRef`,
`hasNonModifierRef`, `currentComboRef`, `timeoutRef`).  The timer is
modelled as the sequence the scheduled `submit(newSequence)` callback
closed over, or `none` when no timer is outstanding. -/
structure RecorderState where
  isRecording : Bool
  seqn : Option HotkeySequence
  pendingKeys : HotkeySequence
  activeKeys : Option KeyCombination
  pressedKeys : List JsStr
  hasNonModifier : Bool
  currentCombo : Option KeyCombination
  timer : Option HotkeySequence
deriving DecidableEq

/-- What the recorder reports to its host in one transition. -/
inductive RecorderOut where
  | captured : HotkeySequence → KeyCombinationDisplay → RecorderOut
  | cancelled : RecorderOut
deriving DecidableEq

/-- The recorder's initial (idle) state. -/
def recInit : RecorderState :=
  { isRecording := false, seqn := none, pendingKeys := [], activeKeys := none
  , pressedKeys := [], hasNonModifier := false, currentCombo := none, timer := none }

/-- JS `Set.add`: appends a new element, keeps insertion order. -/
def setAdd (s : List JsStr) (k : JsStr) : List JsStr :=
  if s.contains k then s else s ++ [k]

/-- JS `Set.delete`. -/
def setDel (s : List JsStr) (k : JsStr) : List JsStr :=
  s.filter fun x => x ≠ k

/-- `submit` (`src/useRecordHotkey.ts`): ignore an empty sequence, else clear
all state, leave `RECORDING`, store the sequence and notify `onCapture`. -/
def submit (mac : Bool) (st : RecorderState) (seq : HotkeySequence) :
    RecorderState × List RecorderOut :=
  if seq = [] then (st, [])
  else
    ({ st with
        timer := none, pressedKeys := [], hasNonModifier := false
      , currentCombo := none, seqn := some seq, pendingKeys := []
      , isRecording := false, activeKeys := none },
     [RecorderOut.captured seq (formatCombination mac seq)])

/-- `cancel` (`src/useRecordHotkey.ts`): clear the timer first, discard all
pending state, leave `RECORDING` and notify `onCancel`. -/
def recCancel (st : RecorderState) : RecorderState × List RecorderOut :=
  ({ st with
      timer := none, isRecording := false, pendingKeys := []
    , activeKeys := none, pressedKeys := [], hasNonModifier := false
    , currentCombo := none },
   [RecorderOut.cancelled])

/-- `startRecording` (`src/useRecordHotkey.ts`). -/
def recStart (st : RecorderState) : RecorderState :=
  { st with
      timer := none, isRecording := true, seqn := none, pendingKeys := []
    , activeKeys := none, pressedKeys := [], hasNonModifier := false
    , currentCombo := none }

/-- `handleKeyDown` (`src/useRecordHotkey.ts`): clear the timer, consume
`Enter` (submit a non-empty pending sequence) and `Escape` (cancel), else
track the held keys and expose the provisional combination. -/
def recKeyDown (mac : Bool) (st : RecorderState) (e : KeyEvent) :
    RecorderState × List RecorderOut :=
  if !st.isRecording then (st, [])
  else
    let st := { st with timer := none }
    if e.key = "Enter".toList then
      if st.pendingKeys ≠ [] then submit mac st st.pendingKeys else (st, [])
    else if e.key = "Escape".toList then recCancel st
    else
      let pressed := setAdd st.pressedKeys e.key
      let mods : Modifiers :=
        { ctrl := e.ctrlKey, alt := e.altKey, shift := e.shiftKey, meta := e.metaKey }
      match pressed.find? (fun k => !isModifierKey k) with
      | some k =>
        let combo : KeyCombination := { key := normalizeKey k, modifiers := mods }
        ({ st with
            pressedKeys := pressed, hasNonModifier := true
          , currentCombo := some combo, activeKeys := some combo }, [])
      | none =>
        ({ st with
            pressedKeys := pressed
          , activeKeys := some { key := [], modifiers := mods } }, [])

/-- `handleKeyUp` (`src/useRecordHotkey.ts`): drop the released key; when the
combination completes (all keys released, or Meta released after a
non-modifier key), append the provisional combination to the pending
sequence and schedule `submit` on the sequence timeout. -/
def recKeyUp (st : RecorderState) (e : KeyEvent) :
    RecorderState × List RecorderOut :=
  if !st.isRecording then (st, [])
  else
    let pressed := setDel st.pressedKeys e.key
    let shouldComplete :=
      pressed.isEmpty || (e.key = "Meta".toList && st.hasNonModifier)
    match st.currentCombo with
    | some combo =>
      if shouldComplete && st.hasNonModifier then
        let newSequence := st.pendingKeys ++ [combo]
        ({ st with
            pressedKeys := [], hasNonModifier := false, currentCombo := none
          , activeKeys := none, pendingKeys := newSequence
          , timer := some newSequence }, [])
      else ({ st with pressedKeys := pressed }, [])
    | none => ({ st with pressedKeys := pressed }, [])

/-- The scheduled sequence-timeout callback firing: `submit` on the sequence
it closed over (a cleared timer never fires). -/
def recTimerFire (mac : Bool) (st : RecorderState) :
    RecorderState × List RecorderOut :=
  match st.timer with
  | none => (st, [])
  | some seq => submit mac { st with timer := none } seq

/-! ## The sequence-dispatch matcher

Modelled from the spec: the sequence-aware matcher (the `pendingKeys` /
`sequenceTimeout` dispatch protocol of spec §4.3) is not among the
repository's source files — only its callers (`SequenceModal`, the demo's
`HotkeysProvider` configuration) appear — so it is modelled here from the
spec's words.  `pendingKeys` keeps the qualifying events so that each
position is compared with the matcher's own single-combination `matches`
rule. -/

/-- Modelled from the spec: the single-combination matching rule of §4.3
applied to a parsed `KeyCombination` of the binding table. -/
def matchesCombo (e : KeyEvent) (c : KeyCombination) : Bool :=
  let eventKey := normalizeKey e.key
  let shiftMatches :=
    if isShiftedChar e.key then (if c.modifiers.shift then e.shiftKey else true)
    else e.shiftKey == c.modifiers.shift
  e.ctrlKey == c.modifiers.ctrl &&
  e.altKey == c.modifiers.alt &&
  shiftMatches &&
  e.metaKey == c.modifiers.meta &&
  eventKey == c.key

/-- Modelled from the spec: `pendingKeys` is an exact match of a bound
sequence. -/
def exactSeqMatch (evs : List KeyEvent) (seq : HotkeySequence) : Bool :=
  evs.length == seq.length &&
  (List.zip evs seq).all fun p => matchesCombo p.1 p.2

/-- Modelled from the spec: `pendingKeys` is a strict prefix of a bound
sequence (a "completion" exists). -/
def strictPrefixMatch (evs : List KeyEvent) (seq : HotkeySequence) : Bool :=
  evs.length < seq.length &&
  (List.zip evs seq).all fun p => matchesCombo p.1 p.2

/-- Modelled from the spec: the matcher's own state — the pending keys and
whether a sequence timer is outstanding. -/
structure MatcherState where
  pendingKeys : List KeyEvent
  timerActive : Bool
deriving DecidableEq

def matcherInit : MatcherState := { pendingKeys := [], timerActive := false }

/-- Modelled from the spec: iterate the table in its defined order and fire
the first binding whose sequence exactly matches the pending keys and whose
action list holds an action with a registered handler. -/
def seqFireLoop (evs : List KeyEvent) (handlers : List JsStr) : HotkeyMap → Option JsStr
  | [] => none
  | (hotkeyStr, actionName) :: rest =>
    if exactSeqMatch evs (parseHotkeyString hotkeyStr) then
      match (toActionList actionName).find? (fun a => handlers.contains a) with
      | some a => some a
      | none => seqFireLoop evs handlers rest
    else seqFireLoop evs handlers rest

/-- Modelled from the spec (§4.3 dispatch protocol): on a qualifying keydown
append to `pendingKeys`; fire and reset on an exact match, re-arm the timer
when completions remain, and clear the dead pending sequence otherwise. -/
def matcherKeyDown (enableOnFormTags : Bool) (keymap : HotkeyMap)
    (handlers : List JsStr) (st : MatcherState) (e : KeyEvent) :
    MatcherState × Option JsStr :=
  if !enableOnFormTags && e.isFormTarget then (st, none)
  else if isModifierKey e.key then (st, none)
  else
    let pending := st.pendingKeys ++ [e]
    match seqFireLoop pending handlers keymap with
    | some a => ({ pendingKeys := [], timerActive := false }, some a)
    | none =>
      if keymap.any (fun p => strictPrefixMatch pending (parseHotkeyString p.1)) then
        ({ pendingKeys := pending, timerActive := true }, none)
      else
        ({ st with pendingKeys := [] }, none)

/-- Modelled from the spec: the sequence timer firing clears `pendingKeys`
without firing any action. -/
def matcherTimerFire (_st : MatcherState) : MatcherState × Option JsStr :=
  ({ pendingKeys := [], timerActive := false }, none)

/-! ## Derived definitions and concrete fixtures used by the theorems -/

/-- The modifier-alias tokens recognised by the parsing grammar. -/
def aliasToks : List JsStr :=
  [ ctrlTok, controlTok, altTok, optionTok, shiftTok, metaTok, cmdTok, commandTok ]

/-- The modifier fragments of the `idParts` array of
`formatSingleCombination`, in its fixed ctrl, meta, alt, shift order. -/
def modTokens (c : KeyCombination) : List JsStr :=
  (if c.modifiers.ctrl then [ ctrlTok ] else []) ++
  (if c.modifiers.meta then [ metaTok ] else []) ++
  (if c.modifiers.alt then [ altTok ] else []) ++
  (if c.modifiers.shift then [ shiftTok ] else [])

/-- The full `idParts` array of `formatSingleCombination`. -/
def idTokens (c : KeyCombination) : List JsStr := modTokens c ++ [ c.key ]

/-- A key token on which the canonical-id codec is injective: non-empty,
already lowercase, free of `+` and whitespace, and not itself a modifier
alias.  Every token `normalizeKey` produces is lowercase; the further
restrictions are what the `+`-counterexample to the unconditional round-trip
law forces. -/
def GoodKeyTok (k : JsStr) : Prop :=
  k ≠ [] ∧ toLowerStr k = k ∧ (∀ c ∈ k, c ≠ '+') ∧ (∀ c ∈ k, isWs c = false) ∧
    k ∉ aliasToks

instance (k : JsStr) : Decidable (GoodKeyTok k) := by
  unfold GoodKeyTok
  infer_instance

/-- The empty modifier set. -/
def noMods : Modifiers := { ctrl := false, alt := false, shift := false, meta := false }

/-- A plain keydown of `key` with no modifiers, not aimed at a form field. -/
def plainEv (key : JsStr) : KeyEvent :=
  { key := key, ctrlKey := false, altKey := false, shiftKey := false
  , metaKey := false, isFormTarget := false }

def gEv : KeyEvent := plainEv ("g".toList)
def tEv : KeyEvent := plainEv ("t".toList)
def kEv : KeyEvent := plainEv ("k".toList)
def enterEv : KeyEvent := plainEv ("Enter".toList)
def escEv : KeyEvent := plainEv ("Escape".toList)

/-- The event of typing `?`: shift is inherently held. -/
def questionEv : KeyEvent :=
  { key := "?".toList, ctrlKey := false, altKey := false, shiftKey := true
  , metaKey := false, isFormTarget := false }

def gCombo : KeyCombination := { key := "g".toList, modifiers := noMods }
def tCombo : KeyCombination := { key := "t".toList, modifiers := noMods }

/-- The sequence `g t`, used to instantiate the round-trip law. -/
def gtSeq : HotkeySequence := [ gCombo, tCombo ]

/-- The single-combination sequence on the canonical key token `+`: the
round-trip counterexample. -/
def plusSeq : HotkeySequence := [ { key := "+".toList, modifiers := noMods } ]

/-- The table `{ "k": "a", "j": "a" }`. -/
def tableKJ : HotkeyMap :=
  [ ("k".toList, StrOrArr.one ("a".toList))
  , ("j".toList, StrOrArr.one ("a".toList)) ]

/-- The table `{ "k": ["a", "b"] }`. -/
def tableKAB : HotkeyMap :=
  [ ("k".toList, StrOrArr.many [ "a".toList, "b".toList ]) ]

/-- The table `{ "2": "zoomOut", "2 w": "gotoW" }`. -/
def tableZoom : HotkeyMap :=
  [ ("2".toList, StrOrArr.one ("zoomOut".toList))
  , ("2 w".toList, StrOrArr.one ("gotoW".toList)) ]

/-- The table `{ "ctrl+k": "a", "control+k": "b" }`: two textually distinct
keys that parse to the same sequence. -/
def tableCtrlPair : HotkeyMap :=
  [ ("ctrl+k".toList, StrOrArr.one ("a".toList))
  , ("control+k".toList, StrOrArr.one ("b".toList)) ]

/-- The binding table `{ "g t": "gotoTable", "g h": "gotoHome" }`. -/
def tableGoto : HotkeyMap :=
  [ ("g t".toList, StrOrArr.one ("gotoTable".toList))
  , ("g h".toList, StrOrArr.one ("gotoHome".toList)) ]

/-- Handlers registered for both `gotoTable` and `gotoHome`. -/
def gotoHandlers : List JsStr := [ "gotoTable".toList, "gotoHome".toList ]

/-- The state recCancel and an Escape keydown leave behind: `IDLE`, all
pending state discarded, timer cleared; only the last captured sequence
(`seqn`) survives. -/
def recCancelledState (st : RecorderState) : RecorderState :=
  { st with
      timer := none, isRecording := false, pendingKeys := []
    , activeKeys := none, pressedKeys := [], hasNonModifier := false
    , currentCombo := none }

/-- The state an `Enter`-keydown finalization leaves behind. -/
def recFinalizedState (st : RecorderState) : RecorderState :=
  { st with
      timer := none, pressedKeys := [], hasNonModifier := false
    , currentCombo := none, seqn := some st.pendingKeys, pendingKeys := []
    , isRecording := false, activeKeys := none }

/-- A recording session that has already captured `g` into the pending
sequence and has a sequence timer outstanding. -/
def recMidSession : RecorderState :=
  { isRecording := true, seqn := none, pendingKeys := [ gCombo ]
  , activeKeys := none, pressedKeys := [], hasNonModifier := false
  , currentCombo := none, timer := some [ gCombo ] }

/-! ## Basic lemmas on the string model -/

theorem toNat_ofNat_of_valid (n : Nat) (h : n.isValidChar) :
    (Char.ofNat n).toNat = n := by
  simp [Char.ofNat, h]
  rfl

theorem lowerChar_toNat (c : Char) :
    (lowerChar c).toNat =
      if 65 ≤ c.toNat ∧ c.toNat ≤ 90 then c.toNat + 32 else c.toNat := by
  unfold lowerChar
  by_cases h : 65 ≤ c.toNat ∧ c.toNat ≤ 90
  · have hv : (c.toNat + 32).isValidChar := by
      left
      omega
    rw [if_pos h, if_pos h, toNat_ofNat_of_valid _ hv]
  · rw [if_neg h, if_neg h]

theorem lowerChar_not_upper (c : Char) :
    ¬(65 ≤ (lowerChar c).toNat ∧ (lowerChar c).toNat ≤ 90) := by
  rw [lowerChar_toNat]
  by_cases h : 65 ≤ c.toNat ∧ c.toNat ≤ 90
  · rw [if_pos h]
    omega
  · rw [if_neg h]
    omega

theorem lowerChar_idem (c : Char) : lowerChar (lowerChar c) = lowerChar c := by
  have h := lowerChar_not_upper c
  unfold lowerChar
  rw [if_neg]
  intro hc
  exact h hc

theorem toLowerStr_idem (s : JsStr) : toLowerStr (toLowerStr s) = toLowerStr s := by
  unfold toLowerStr
  rw [List.map_map]
  apply List.map_congr_left
  intro c _
  exact lowerChar_idem c

theorem char_eq_of_toNat_eq {a b : Char} (h : a.toNat = b.toNat) : a = b := by
  apply Char.ext
  exact UInt32.ext h

theorem lowerChar_eq_iff_of_not_upper (c d : Char)
    (hd : ¬(65 ≤ d.toNat ∧ d.toNat ≤ 90)) : lowerChar c = d ↔ c.toNat + 32 = d.toNat ∧ 65 ≤ c.toNat ∧ c.toNat ≤ 90 ∨ c = d := by
  constructor
  · intro h
    by_cases hc : 65 ≤ c.toNat ∧ c.toNat ≤ 90
    · left
      refine ⟨?_, hc⟩
      have := lowerChar_toNat c
      rw [if_pos hc] at this
      rw [← h, this]
    · right
      unfold lowerChar at h
      rwa [if_neg hc] at h
  · intro h
    rcases h with ⟨heq, hc⟩ | heq
    · apply char_eq_of_toNat_eq
      have := lowerChar_toNat c
      rw [if_pos hc] at this
      rw [this, heq]
    · subst heq
      unfold lowerChar
      rw [if_neg hd]

theorem lowerChar_eq_space {c : Char} (h : lowerChar c = ' ') : c = ' ' := by
  have ht := lowerChar_toNat c
  rw [h] at ht
  have h32 : (' ' : Char).toNat = 32 := by decide
  rw [h32] at ht
  by_cases hc : 65 ≤ c.toNat ∧ c.toNat ≤ 90
  · rw [if_pos hc] at ht
    omega
  · rw [if_neg hc] at ht
    apply char_eq_of_toNat_eq
    rw [← ht, h32]

theorem toLowerStr_ne_upper_cons (s : JsStr) (d : Char) (t : List Char)
    (hd : 65 ≤ d.toNat ∧ d.toNat ≤ 90) : toLowerStr s ≠ d :: t := by
  cases s with
  | nil => simp [toLowerStr]
  | cons c cs =>
    intro h
    simp only [toLowerStr, List.map_cons, List.cons.injEq] at h
    exact lowerChar_not_upper c (h.1 ▸ hd)

theorem lookup_mem_snd {α β : Type} [BEq α] [LawfulBEq α] :
    ∀ (l : List (α × β)) (k : α) (v : β), l.lookup k = some v → v ∈ l.map Prod.snd := by
  intro l
  induction l with
  | nil =>
    intro k v h
    simp [List.lookup] at h
  | cons p rest ih =>
    intro k v h
    rw [List.lookup] at h
    by_cases he : k == p.1
    · rw [he] at h
      simp at h
      simp [← h]
    · rw [Bool.of_not_eq_true he] at h
      simp only [List.map_cons, List.mem_cons]
      right
      exact ih k v h

theorem lookup_eq_none_of_not_mem {α β : Type} [BEq α] [LawfulBEq α] :
    ∀ (l : List (α × β)) (k : α), (∀ p ∈ l, k ≠ p.1) → l.lookup k = none := by
  intro l
  induction l with
  | nil =>
    intro k _
    rfl
  | cons p rest ih =>
    intro k h
    rw [List.lookup]
    have hk : ¬(k == p.1) := by
      simp only [beq_iff_eq]
      exact h p (by simp)
    rw [Bool.of_not_eq_true hk]
    exact ih k (fun q hq => h q (by simp [hq]))

theorem normalizeKey_of_lookup_none (s : JsStr) (h : keyMapPairs.lookup s = none) :
    normalizeKey s = toLowerStr s := by
  simp only [normalizeKey, h]
  split
  · rfl
  · split <;> rfl

theorem normalizeKey_of_lookup_some (s v : JsStr) (h : keyMapPairs.lookup s = some v) :
    normalizeKey s = v := by
  simp only [normalizeKey, h]

theorem lookup_toLowerStr_eq_none (s : JsStr) (h : keyMapPairs.lookup s = none) :
    keyMapPairs.lookup (toLowerStr s) = none := by
  apply lookup_eq_none_of_not_mem
  intro p hp
  simp only [keyMapPairs, List.mem_cons, List.not_mem_nil, or_false] at hp
  rcases hp with hp | hp | hp | hp | hp | hp | hp | hp | hp | hp | hp | hp | hp | hp <;> subst hp
  · intro he
    have hs : s = " ".toList := by
      cases s with
      | nil => simp [toLowerStr] at he
      | cons c cs =>
        simp only [toLowerStr, List.map_cons] at he
        have h1 : lowerChar c = ' ' := by
          have := congrArg (fun l => l.headI) he
          simpa using this
        have h2 : cs.map lowerChar = [] := by
          have := congrArg (fun l => l.tail) he
          simpa [toLowerStr] using this
        have hc := lowerChar_eq_space h1
        subst hc
        simp at h2
        simp [h2]
    rw [hs] at h
    exact absurd h (by decide)
  all_goals exact toLowerStr_ne_upper_cons s _ _ (by decide)

/-- C9.  `normalizeKey` is a function (determinism is definitional) and is
idempotent on every input: normalizing an already-normalized token is a
no-op. -/
theorem c9_normalizeKey_idempotent :
    ∀ key : JsStr, normalizeKey (normalizeKey key) = normalizeKey key := by
  intro s
  cases hl : keyMapPairs.lookup s with
  | some v =>
    rw [normalizeKey_of_lookup_some s v hl]
    have hv := lookup_mem_snd keyMapPairs s v hl
    simp only [keyMapPairs, List.map_cons, List.map_nil, List.mem_cons,
      List.not_mem_nil, or_false] at hv
    rcases hv with hv | hv | hv | hv | hv | hv | hv | hv | hv | hv | hv | hv | hv | hv <;>
      subst hv <;> decide
  | none =>
    rw [normalizeKey_of_lookup_none s hl,
      normalizeKey_of_lookup_none _ (lookup_toLowerStr_eq_none s hl), toLowerStr_idem]

/-! ## Helper lemmas for the conflict analyzer and dispatcher -/

theorem combinationsEqual_iff (a b : KeyCombination) :
    combinationsEqual a b = true ↔ a = b := by
  cases a with
  | mk ka ma =>
    cases b with
    | mk kb mb =>
      cases ma
      cases mb
      simp only [combinationsEqual, Bool.and_eq_true, beq_iff_eq,
        KeyCombination.mk.injEq, Modifiers.mk.injEq]
      tauto

theorem zip_all_combEq_iff : ∀ (s t : HotkeySequence), s.length ≤ t.length →
    ((((s.zip t).all fun p => combinationsEqual p.1 p.2) = true) ↔
      s = t.take s.length) := by
  intro s
  induction s with
  | nil =>
    intro t _
    simp
  | cons a s' ih =>
    intro t hlen
    cases t with
    | nil => simp at hlen
    | cons b t' =>
      simp only [List.zip_cons_cons, List.all_cons, Bool.and_eq_true,
        List.length_cons, List.take_succ_cons, List.cons.injEq]
      rw [combinationsEqual_iff, ih t' (by simpa using hlen)]

theorem isPrefixSeq_iff (s t : HotkeySequence) :
    isPrefixSeq s t = true ↔ s.length < t.length ∧ s = t.take s.length := by
  unfold isPrefixSeq
  by_cases h : t.length ≤ s.length
  · rw [if_pos h]
    simp
    omega
  · rw [if_neg h]
    rw [zip_all_combEq_iff s t (by omega)]
    simp
    omega

theorem dispatchLoop_length (e : KeyEvent) (handlers : List JsStr) :
    ∀ keymap : HotkeyMap, (dispatchLoop e handlers keymap).length ≤ 1 := by
  intro keymap
  induction keymap with
  | nil => simp [dispatchLoop]
  | cons p rest ih =>
    cases p with
    | mk hotkeyStr actionName =>
      rw [dispatchLoop]
      split
      · cases hf : (toActionList actionName).find? fun a => handlers.contains a with
        | some a => simp [hf]
        | none => simpa [hf] using ih
      · exact ih

/-! ## C1 -/

/-- C1.  Sequence dispatch on `{ "g t": "gotoTable", "g h": "gotoHome" }`
with handlers registered for both actions: a qualifying `g` keydown produces
a pending sequence and arms the timer with no action fired; a qualifying `t`
keydown within the timeout (i.e. before the timer-fire event) fires
`gotoTable` and resets; the timer firing after only `g` fires nothing and
resets the pending state. -/
theorem c1_sequence_dispatch :
    matcherKeyDown false tableGoto gotoHandlers matcherInit gEv =
      ({ pendingKeys := [ gEv ], timerActive := true }, none) ∧
    matcherKeyDown false tableGoto gotoHandlers
        { pendingKeys := [ gEv ], timerActive := true } tEv =
      (matcherInit, some ("gotoTable".toList)) ∧
    matcherTimerFire { pendingKeys := [ gEv ], timerActive := true } =
      (matcherInit, none) := by
  refine ⟨by decide, by decide, by decide⟩

/-! ## C3 -/

/-- C3.  `matchesHotkey` requires exact equality of the ctrl/alt/meta flags
and the normalized key token, with the shift exception: for a shift-required
raw character, a binding without shift ignores the event's shift flag, while
a binding with shift requires it; in particular the event `?`+shift matches
both the bound combo `shift+?` and the bound combo `?`. -/
theorem c3_matches_shift_leniency :
    (∀ (e : KeyEvent) (hk : ParsedHotkey),
      matchesHotkey e hk = true ↔
        (e.ctrlKey = hk.ctrl ∧ e.altKey = hk.alt ∧ e.metaKey = hk.meta ∧
         normalizeKey e.key = hk.key ∧
         (if isShiftedChar e.key then (hk.shift = true → e.shiftKey = true)
          else e.shiftKey = hk.shift))) ∧
    matchesHotkey questionEv (parseHotkey ("shift+?".toList)) = true ∧
    (parseHotkey ("?".toList)).shift = false ∧
    matchesHotkey questionEv (parseHotkey ("?".toList)) = true := by
  refine ⟨?_, by decide, by decide, by decide⟩
  intro e hk
  unfold matchesHotkey
  cases hsc : isShiftedChar e.key with
  | false =>
    simp only [hsc, Bool.false_eq_true, if_false, Bool.and_eq_true, beq_iff_eq]
    tauto
  | true =>
    cases hs : hk.shift with
    | false =>
      simp only [hsc, hs, if_true, if_false, Bool.and_eq_true, beq_iff_eq]
      simp
      tauto
    | true =>
      simp only [hsc, hs, if_true, Bool.and_eq_true, beq_iff_eq]
      simp
      tauto

/-! ## C4 -/

/-- C4.  The conflict analyzer on the spec's three example tables: no
conflict for `{ "k": "a", "j": "a" }`; exactly one duplicate conflict on
`"k"` with actions `[a, b]` for `{ "k": ["a","b"] }`; a prefix conflict for
`{ "2": "zoomOut", "2 w": "gotoW" }` reporting both entries, with `"2"`
annotated as the prefix of `"2 w"`.  Prefix comparison is exact combo-wise
equality (no shift leniency) of a strictly shorter leading segment. -/
theorem c4_conflict_examples :
    getConflictsArray tableKJ = [] ∧
    getConflictsArray tableKAB =
      [ { key := "k".toList, actions := [ "a".toList, "b".toList ]
        , kind := ConflictKind.duplicate } ] ∧
    findConflicts tableZoom =
      [ ("2".toList, [ "zoomOut".toList, "prefix of: 2 w".toList ])
      , ("2 w".toList, [ "gotoW".toList, "has prefix: 2".toList ]) ] ∧
    getConflictsArray tableZoom =
      [ { key := "2".toList, actions := [ "zoomOut".toList ]
        , kind := ConflictKind.seqPrefix }
      , { key := "2 w".toList, actions := [ "gotoW".toList ]
        , kind := ConflictKind.seqPrefix } ] ∧
    (∀ s t : HotkeySequence,
      isPrefixSeq s t = true ↔ s.length < t.length ∧ s = t.take s.length) := by
  refine ⟨by decide, by decide, by decide, by decide, isPrefixSeq_iff⟩

/-! ## C5 -/

/-- C5.  While recording, a keydown whose raw key is `Enter` finalizes a
non-empty pending sequence immediately: the captured sequence is exactly the
pending one (`Enter` is consumed, not appended) and no key-up is needed. -/
theorem c5_enter_finalizes (mac : Bool) (st : RecorderState) (e : KeyEvent)
    (hrec : st.isRecording = true) (hkey : e.key = "Enter".toList)
    (hpend : st.pendingKeys ≠ []) :
    recKeyDown mac st e =
      (recFinalizedState st,
       [ RecorderOut.captured st.pendingKeys (formatCombination mac st.pendingKeys) ]) := by
  simp only [recKeyDown, hrec, hkey, Bool.not_true, Bool.false_eq_true, if_false]
  rw [if_pos hpend]
  simp only [submit, if_neg hpend]
  rfl

/-- Witness for C5 at a concrete mid-session state: after capturing `g`,
the `Enter` keydown finalizes `[g]`. -/
theorem c5_enter_finalizes_witness :
    recMidSession.isRecording = true ∧ recMidSession.pendingKeys ≠ [] ∧
    recKeyDown false recMidSession enterEv =
      (recFinalizedState recMidSession,
       [ RecorderOut.captured recMidSession.pendingKeys
           (formatCombination false recMidSession.pendingKeys) ]) :=
  ⟨by decide, by decide,
    c5_enter_finalizes false recMidSession enterEv (by decide) (by decide) (by decide)⟩

/-! ## C6 -/

/-- C6.  Per keydown event at most one handler executes: the loop fires the
first table entry (in order) that matches and has an action with a
registered handler, then stops; a matching entry none of whose actions has a
handler, or a non-matching entry, is skipped in favor of later entries. -/
theorem c6_first_match_single_fire :
    (∀ (enableOnFormTags : Bool) (keymap : HotkeyMap) (handlers : List JsStr)
       (e : KeyEvent), (handleKeyDown enableOnFormTags keymap handlers e).length ≤ 1) ∧
    (∀ (e : KeyEvent) (handlers : List JsStr) (hotkeyStr : JsStr)
       (actionName : StrOrArr) (rest : HotkeyMap) (a : JsStr),
      matchesHotkey e (parseHotkey hotkeyStr) = true →
      (toActionList actionName).find? (fun x => handlers.contains x) = some a →
      dispatchLoop e handlers ((hotkeyStr, actionName) :: rest) = [ a ]) ∧
    (∀ (e : KeyEvent) (handlers : List JsStr) (hotkeyStr : JsStr)
       (actionName : StrOrArr) (rest : HotkeyMap),
      (toActionList actionName).find? (fun x => handlers.contains x) = none →
      dispatchLoop e handlers ((hotkeyStr, actionName) :: rest) =
        dispatchLoop e handlers rest) ∧
    (∀ (e : KeyEvent) (handlers : List JsStr) (hotkeyStr : JsStr)
       (actionName : StrOrArr) (rest : HotkeyMap),
      matchesHotkey e (parseHotkey hotkeyStr) = false →
      dispatchLoop e handlers ((hotkeyStr, actionName) :: rest) =
        dispatchLoop e handlers rest) ∧
    dispatchLoop kEv [ "b".toList ]
      [ ("k".toList, StrOrArr.one ("a".toList))
      , ("k".toList, StrOrArr.one ("b".toList)) ] = [ "b".toList ] := by
  refine ⟨?_, ?_, ?_, ?_, by decide⟩
  · intro enableOnFormTags keymap handlers e
    unfold handleKeyDown
    split
    · simp
    · split
      · simp
      · exact dispatchLoop_length e handlers keymap
  · intro e handlers hotkeyStr actionName rest a hm hf
    rw [dispatchLoop, if_pos hm, hf]
  · intro e handlers hotkeyStr actionName rest hf
    rw [dispatchLoop]
    split
    · rw [hf]
    · rfl
  · intro e handlers hotkeyStr actionName rest hm
    rw [dispatchLoop, if_neg]
    rw [hm]
    simp

/-! ## C8 -/

/-- C8.  Cancellation is immediate and total: `cancel()` (and an `Escape`
keydown while recording) moves to `IDLE`, discards the pending sequence,
held keys, provisional combination and active-key preview, emits only the
cancellation notification (no capture), and clears the timer — after which
a previously scheduled timer firing is a no-op that captures nothing. -/
theorem c8_cancel_immediate_total (mac : Bool) (st : RecorderState) (e : KeyEvent)
    (hrec : st.isRecording = true) (hkey : e.key = "Escape".toList) :
    recCancel st = (recCancelledState st, [ RecorderOut.cancelled ]) ∧
    recKeyDown mac st e = (recCancelledState st, [ RecorderOut.cancelled ]) ∧
    (recCancelledState st).timer = none ∧
    recTimerFire mac (recCancelledState st) = (recCancelledState st, []) ∧
    (recCancelledState st).isRecording = false ∧
    (recCancelledState st).pendingKeys = [] ∧
    (recCancelledState st).pressedKeys = [] ∧
    (recCancelledState st).activeKeys = none ∧
    (recCancelledState st).currentCombo = none := by
  refine ⟨rfl, ?_, rfl, rfl, rfl, rfl, rfl, rfl, rfl⟩
  simp only [recKeyDown, hrec, hkey, Bool.not_true, Bool.false_eq_true, if_false]
  have hne : ("Escape".toList : JsStr) ≠ "Enter".toList := by decide
  rw [if_neg hne]
  rfl

/-- Witness for C8 at a concrete recording state with a scheduled timer. -/
theorem c8_cancel_witness :
    recMidSession.timer = some [ gCombo ] ∧ recMidSession.isRecording = true ∧
    (recCancel recMidSession =
        (recCancelledState recMidSession, [ RecorderOut.cancelled ]) ∧
      recKeyDown false recMidSession escEv =
        (recCancelledState recMidSession, [ RecorderOut.cancelled ]) ∧
      (recCancelledState recMidSession).timer = none ∧
      recTimerFire false (recCancelledState recMidSession) =
        (recCancelledState recMidSession, []) ∧
      (recCancelledState recMidSession).isRecording = false ∧
      (recCancelledState recMidSession).pendingKeys = [] ∧
      (recCancelledState recMidSession).pressedKeys = [] ∧
      (recCancelledState recMidSession).activeKeys = none ∧
      (recCancelledState recMidSession).currentCombo = none) :=
  ⟨by decide, by decide,
    c8_cancel_immediate_total false recMidSession escEv (by decide) (by decide)⟩

/-! ## C10 -/

/-- C10.  Two entries whose hotkey strings differ textually but parse to the
same sequence (`ctrl+k` vs `control+k`) produce no conflict at all: the
duplicate pass groups by the raw string, and a sequence is never a strict
prefix of an equal-length sequence. -/
theorem c10_alias_pair_no_conflict :
    ("ctrl+k".toList : JsStr) ≠ "control+k".toList ∧
    parseHotkeyString ("ctrl+k".toList) = parseHotkeyString ("control+k".toList) ∧
    findConflicts tableCtrlPair = [] ∧
    getConflictsArray tableCtrlPair = [] ∧
    hasConflicts tableCtrlPair = false ∧
    (∀ s t : HotkeySequence, s.length = t.length → isPrefixSeq s t = false) := by
  refine ⟨by decide, by decide, by decide, by decide, by decide, ?_⟩
  intro s t h
  unfold isPrefixSeq
  rw [if_pos (by omega)]

/-! ## Split/join lemmas for the canonical-id codec -/

theorem splitAux_append_no_sep (sep : Char) :
    ∀ (t : List Char), (∀ c ∈ t, c ≠ sep) → ∀ (r acc : List Char),
      splitAux sep (t ++ r) acc = splitAux sep r (t.reverse ++ acc) := by
  intro t
  induction t with
  | nil =>
    intro _ r acc
    simp
  | cons c t' ih =>
    intro h r acc
    have hc : c ≠ sep := h c (by simp)
    rw [List.cons_append, splitAux, if_neg hc,
      ih (fun x hx => h x (by simp [hx])) r (c :: acc)]
    simp

theorem splitOnChar_joinSep (sep : Char) :
    ∀ ts : List JsStr, ts ≠ [] → (∀ t ∈ ts, ∀ c ∈ t, c ≠ sep) →
      splitOnChar sep (joinSep sep ts) = ts := by
  intro ts
  induction ts with
  | nil =>
    intro h
    exact absurd rfl h
  | cons t us ih =>
    intro _ h
    cases us with
    | nil =>
      show splitAux sep (joinSep sep [t]) [] = [t]
      rw [joinSep]
      have h1 := splitAux_append_no_sep sep t (h t (by simp)) [] []
      rw [List.append_nil] at h1
      rw [h1, splitAux]
      simp
    | cons u vs =>
      show splitAux sep (joinSep sep (t :: u :: vs)) [] = t :: u :: vs
      rw [joinSep, splitAux_append_no_sep sep t (h t (by simp)) _ [], splitAux,
        if_pos rfl]
      simp only [List.append_nil, List.reverse_reverse, List.cons.injEq, true_and]
      exact ih (by simp) (fun x hx c hc => h x (by simp [hx]) c hc)

theorem joinSep_ne_nil (sep : Char) :
    ∀ ts : List JsStr, ts ≠ [] → (∀ t ∈ ts, t ≠ []) → joinSep sep ts ≠ [] := by
  intro ts
  match ts with
  | [] => intro h _; exact absurd rfl h
  | [t] =>
    intro _ h
    rw [joinSep]
    exact h t (by simp)
  | t :: u :: vs =>
    intro _ _
    rw [joinSep]
    simp

theorem mem_joinSep (sep : Char) :
    ∀ (ts : List JsStr) (c : Char), c ∈ joinSep sep ts →
      c = sep ∨ ∃ t ∈ ts, c ∈ t := by
  intro ts
  induction ts with
  | nil =>
    intro c hc
    rw [joinSep] at hc
    simp at hc
  | cons t us ih =>
    intro c hc
    cases us with
    | nil =>
      rw [joinSep] at hc
      right
      exact ⟨t, by simp, hc⟩
    | cons u vs =>
      rw [joinSep] at hc
      rcases List.mem_append.mp hc with h | h
      · right
        exact ⟨t, by simp, h⟩
      · rcases List.mem_cons.mp h with h | h
        · exact Or.inl h
        · rcases ih c h with h | ⟨x, hx, hcx⟩
          · exact Or.inl h
          · exact Or.inr ⟨x, by simp [hx], hcx⟩

theorem toLowerStr_append (a b : JsStr) :
    toLowerStr (a ++ b) = toLowerStr a ++ toLowerStr b := by
  simp [toLowerStr]

theorem toLowerStr_cons (c : Char) (s : JsStr) :
    toLowerStr (c :: s) = lowerChar c :: toLowerStr s := rfl

theorem toLowerStr_joinSep (sep : Char) (hsep : lowerChar sep = sep) :
    ∀ ts : List JsStr, toLowerStr (joinSep sep ts) = joinSep sep (ts.map toLowerStr) := by
  intro ts
  induction ts with
  | nil => rfl
  | cons t us ih =>
    cases us with
    | nil => rfl
    | cons u vs =>
      rw [joinSep, List.map_cons, List.map_cons, joinSep, toLowerStr_append,
        toLowerStr_cons, hsep, ih, List.map_cons]

theorem splitWsAux_no_ws :
    ∀ (s acc : List Char) (b : Bool), (∀ c ∈ s, isWs c = false) →
      splitWsAux s acc b = [acc.reverse ++ s] := by
  intro s
  induction s with
  | nil =>
    intro acc b _
    simp [splitWsAux]
  | cons c cs ih =>
    intro acc b h
    rw [splitWsAux, if_neg (by simp [h c (by simp)]),
      ih (c :: acc) false (fun x hx => h x (by simp [hx]))]
    simp

theorem jsSplitWs_no_ws (s : JsStr) (h : ∀ c ∈ s, isWs c = false) :
    jsSplitWs s = [s] := by
  unfold jsSplitWs
  rw [splitWsAux_no_ws s [] false h]
  rfl

theorem splitWsAux_run :
    ∀ (t : List Char), (∀ c ∈ t, isWs c = false) → ∀ (r acc : List Char) (b : Bool),
      splitWsAux (t ++ r) acc b =
        splitWsAux r (t.reverse ++ acc) (if t.isEmpty then b else false) := by
  intro t
  induction t with
  | nil =>
    intro _ r acc b
    simp
  | cons c t' ih =>
    intro h r acc b
    rw [List.cons_append, splitWsAux, if_neg (by simp [h c (by simp)]),
      ih (fun x hx => h x (by simp [hx])) r (c :: acc)]
    cases t'.isEmpty <;> simp

theorem splitWs_joinSep :
    ∀ ts : List JsStr, ts ≠ [] →
      (∀ t ∈ ts, t ≠ [] ∧ ∀ c ∈ t, isWs c = false) →
      ∀ b : Bool, splitWsAux (joinSep ' ' ts) [] b = ts := by
  intro ts
  induction ts with
  | nil =>
    intro h
    exact absurd rfl h
  | cons t us ih =>
    intro _ h b
    have ht := h t (by simp)
    cases us with
    | nil =>
      rw [joinSep]
      have h1 := splitWsAux_run t ht.2 [] [] b
      rw [List.append_nil] at h1
      rw [h1, if_neg (by simpa using ht.1)]
      simp [splitWsAux]
    | cons u vs =>
      rw [joinSep, splitWsAux_run t ht.2 _ [] b, if_neg (by simpa using ht.1),
        splitWsAux, if_pos (by decide), if_neg (by simp)]
      simp only [List.append_nil, List.reverse_reverse, List.cons.injEq, true_and]
      exact ih (by simp) (fun x hx => h x (by simp [hx])) true

theorem jsTrim_eq_self (s : JsStr)
    (h1 : ∀ c, s.head? = some c → isWs c = false)
    (h2 : ∀ c, s.getLast? = some c → isWs c = false) : jsTrim s = s := by
  cases s with
  | nil => rfl
  | cons c cs =>
    unfold jsTrim
    rw [show List.dropWhile isWs (c :: cs) = c :: cs by
      simp [List.dropWhile, h1 c rfl]]
    cases hrev : (c :: cs).reverse with
    | nil => simp at hrev
    | cons d ds =>
      have hd : isWs d = false := by
        apply h2
        rw [← List.head?_reverse, hrev]
        rfl
      rw [show List.dropWhile isWs (d :: ds) = d :: ds by simp [List.dropWhile, hd],
        ← hrev, List.reverse_reverse]

theorem joinSep_head? (sep : Char) (t : JsStr) (ts : List JsStr) (ht : t ≠ []) :
    (joinSep sep (t :: ts)).head? = t.head? := by
  cases ts with
  | nil => rfl
  | cons u vs =>
    rw [joinSep]
    cases t with
    | nil => exact absurd rfl ht
    | cons c cs => rfl

theorem joinSep_getLast? (sep : Char) :
    ∀ (ts : List JsStr) (t : JsStr), (∀ x ∈ t :: ts, x ≠ []) →
      ∃ last ∈ t :: ts, (joinSep sep (t :: ts)).getLast? = last.getLast? := by
  intro ts
  induction ts with
  | nil =>
    intro t _
    exact ⟨t, by simp, rfl⟩
  | cons u vs ih =>
    intro t h
    obtain ⟨last, hmem, hlast⟩ := ih u (fun x hx => h x (by simp at hx ⊢; tauto))
    refine ⟨last, by simp at hmem ⊢; tauto, ?_⟩
    rw [joinSep, List.getLast?_append_of_ne_nil _ (by simp)]
    rw [show (sep :: joinSep sep (u :: vs)) = [sep] ++ joinSep sep (u :: vs) from rfl,
      List.getLast?_append_of_ne_nil _ (joinSep_ne_nil sep (u :: vs) (by simp)
        (fun x hx => h x (by simp at hx ⊢; tauto)))]
    exact hlast

/-! ## Codec lemmas: the canonical id of one combination -/

theorem lowerChar_ne_plus {d : Char} (h : d ≠ '+') : lowerChar d ≠ '+' := by
  intro he
  have ht := lowerChar_toNat d
  rw [he] at ht
  have h43 : ('+' : Char).toNat = 43 := by decide
  rw [h43] at ht
  by_cases hc : 65 ≤ d.toNat ∧ d.toNat ≤ 90
  · rw [if_pos hc] at ht
    omega
  · rw [if_neg hc] at ht
    exact h (char_eq_of_toNat_eq (by rw [← ht, h43]))

theorem contains_iff_mem (l : List JsStr) (a : JsStr) : l.contains a = true ↔ a ∈ l := by
  simp [List.contains]

theorem formatSingle_id (mac : Bool) (c : KeyCombination) :
    (formatSingleCombination mac c).2 = joinSep '+' (idTokens c) := by
  simp [formatSingleCombination, idTokens, modTokens, List.append_assoc]

theorem mem_ite_singleton {b : Bool} {x t : JsStr}
    (h : t ∈ (if b then [x] else ([] : List JsStr))) : t = x := by
  cases b
  · simp at h
  · simpa using h

theorem mem_idTokens (c : KeyCombination) (t : JsStr) (h : t ∈ idTokens c) :
    t = ctrlTok ∨ t = metaTok ∨ t = altTok ∨ t = shiftTok ∨ t = c.key := by
  rcases List.mem_append.mp h with h | h
  · unfold modTokens at h
    rcases List.mem_append.mp h with h | h
    · rcases List.mem_append.mp h with h | h
      · rcases List.mem_append.mp h with h | h
        · exact Or.inl (mem_ite_singleton h)
        · exact Or.inr (Or.inl (mem_ite_singleton h))
      · exact Or.inr (Or.inr (Or.inl (mem_ite_singleton h)))
    · exact Or.inr (Or.inr (Or.inr (Or.inl (mem_ite_singleton h))))
  · simp at h
    exact Or.inr (Or.inr (Or.inr (Or.inr h)))

theorem idTokens_ne_nil (c : KeyCombination) : idTokens c ≠ [] := by
  simp [idTokens]

theorem idTokens_props (c : KeyCombination) (h : GoodKeyTok c.key) :
    ∀ t ∈ idTokens c,
      t ≠ [] ∧ (∀ ch ∈ t, ch ≠ '+') ∧ (∀ ch ∈ t, isWs ch = false) ∧
        toLowerStr t = t := by
  obtain ⟨hne, hlow, hplus, hws, _⟩ := h
  intro t ht
  rcases mem_idTokens c t ht with rfl | rfl | rfl | rfl | rfl
  · exact ⟨by decide, by decide, by decide, by decide⟩
  · exact ⟨by decide, by decide, by decide, by decide⟩
  · exact ⟨by decide, by decide, by decide, by decide⟩
  · exact ⟨by decide, by decide, by decide, by decide⟩
  · exact ⟨hne, hplus, hws, hlow⟩

theorem parseParts_joinSep (toks : List JsStr) (hne : toks ≠ [])
    (hplus : ∀ t ∈ toks, ∀ ch ∈ t, ch ≠ '+') :
    parseParts (joinSep '+' toks) = toks.map toLowerStr := by
  unfold parseParts
  rw [toLowerStr_joinSep '+' (by decide) toks]
  apply splitOnChar_joinSep
  · simpa using hne
  · intro t ht ch hch
    rcases List.mem_map.mp ht with ⟨x, hx, rfl⟩
    rcases List.mem_map.mp hch with ⟨d, hd, rfl⟩
    exact lowerChar_ne_plus (hplus x hx d hd)

theorem map_toLowerStr_idTokens (c : KeyCombination) (h : GoodKeyTok c.key) :
    (idTokens c).map toLowerStr = idTokens c := by
  have hm : ∀ t ∈ idTokens c, toLowerStr t = t :=
    fun t ht => (idTokens_props c h t ht).2.2.2
  calc (idTokens c).map toLowerStr = (idTokens c).map id := List.map_congr_left hm
  _ = idTokens c := List.map_id _

theorem contains_concat (l : List JsStr) (k x : JsStr) (hkx : k ≠ x) :
    (l ++ [k]).contains x = l.contains x := by
  simp only [List.contains_eq_any_beq, List.any_append, List.any_cons,
    List.any_nil, Bool.or_false, beq_iff_eq]
  rw [show (x == k) = false by simp [Ne.symm hkx], Bool.or_false]

theorem modTokens_contains_vals (c : KeyCombination) :
    (modTokens c).contains ctrlTok = c.modifiers.ctrl ∧
    (modTokens c).contains controlTok = false ∧
    (modTokens c).contains altTok = c.modifiers.alt ∧
    (modTokens c).contains optionTok = false ∧
    (modTokens c).contains shiftTok = c.modifiers.shift ∧
    (modTokens c).contains metaTok = c.modifiers.meta ∧
    (modTokens c).contains cmdTok = false ∧
    (modTokens c).contains commandTok = false := by
  obtain ⟨k, ⟨bc, ba, bs, bm⟩⟩ := c
  cases bc <;> cases ba <;> cases bs <;> cases bm <;>
    exact ⟨rfl, rfl, rfl, rfl, rfl, rfl, rfl, rfl⟩

theorem parseSingle_formatSingle (mac : Bool) (c : KeyCombination)
    (h : GoodKeyTok c.key) :
    parseSingleCombination ((formatSingleCombination mac c).2) = c := by
  have hprops := idTokens_props c h
  have hpp : parseParts ((formatSingleCombination mac c).2) = idTokens c := by
    rw [formatSingle_id, parseParts_joinSep (idTokens c) (idTokens_ne_nil c)
      (fun t ht => (hprops t ht).2.1), map_toLowerStr_idTokens c h]
  have halias := h.2.2.2.2
  have hk : ∀ x ∈ aliasToks, c.key ≠ x := fun x hx heq => halias (heq ▸ hx)
  obtain ⟨hc1, hc2, hc3, hc4, hc5, hc6, hc7, hc8⟩ := modTokens_contains_vals c
  unfold parseSingleCombination
  rw [hpp]
  unfold idTokens
  rw [contains_concat _ _ _ (hk ctrlTok (by decide)),
    contains_concat _ _ _ (hk controlTok (by decide)),
    contains_concat _ _ _ (hk altTok (by decide)),
    contains_concat _ _ _ (hk optionTok (by decide)),
    contains_concat _ _ _ (hk shiftTok (by decide)),
    contains_concat _ _ _ (hk metaTok (by decide)),
    contains_concat _ _ _ (hk cmdTok (by decide)),
    contains_concat _ _ _ (hk commandTok (by decide)),
    hc1, hc2, hc3, hc4, hc5, hc6, hc7, hc8, List.getLast?_concat]
  obtain ⟨k, ⟨bc, ba, bs, bm⟩⟩ := c
  simp

theorem comboId_ne_nil (mac : Bool) (c : KeyCombination) (h : GoodKeyTok c.key) :
    (formatSingleCombination mac c).2 ≠ [] := by
  rw [formatSingle_id]
  exact joinSep_ne_nil '+' (idTokens c) (idTokens_ne_nil c)
    (fun t ht => (idTokens_props c h t ht).1)

theorem comboId_no_ws (mac : Bool) (c : KeyCombination) (h : GoodKeyTok c.key) :
    ∀ ch ∈ (formatSingleCombination mac c).2, isWs ch = false := by
  rw [formatSingle_id]
  intro ch hch
  rcases mem_joinSep '+' (idTokens c) ch hch with rfl | ⟨t, ht, hcht⟩
  · decide
  · exact (idTokens_props c h t ht).2.2.1 ch hcht

/-! ## C2 -/

/-- C2 counterexample.  `+` is a canonical key token (`normalizeKey` fixes
it, and it is one of the recorder-producible shift-required characters), yet
the canonical id of the one-combination sequence on `+` is the string `+`,
which parses back to a combination with the empty key: the unconditional
round-trip law fails. -/
theorem c2_roundtrip_counterexample :
    normalizeKey ("+".toList) = "+".toList ∧
    isShiftedChar ("+".toList) = true ∧
    (formatCombination false plusSeq).id = "+".toList ∧
    parseHotkeyString (formatCombination false plusSeq).id =
      [ { key := [], modifiers := noMods } ] ∧
    parseHotkeyString (formatCombination false plusSeq).id ≠ plusSeq := by
  refine ⟨by decide, by decide, by decide, by decide, by decide⟩

/-- C2 (amended).  The canonical-id round-trip `parse (toId seq) = seq`
holds for every sequence whose combination keys are canonical id tokens on
which the codec is injective: non-empty, lowercase, free of `+` and
whitespace, and not themselves modifier aliases (the `+` key is the
counterexample the original unconditional claim fails on). -/
theorem c2_roundtrip_amended (mac : Bool) (seq : HotkeySequence)
    (h : ∀ c ∈ seq, GoodKeyTok c.key) :
    parseHotkeyString (formatCombination mac seq).id = seq := by
  cases seq with
  | nil => rfl
  | cons c1 rest =>
    cases rest with
    | nil =>
      have hg := h c1 (by simp)
      show parseHotkeyString (formatSingleCombination mac c1).2 = [c1]
      have htne := comboId_ne_nil mac c1 hg
      have htws := comboId_no_ws mac c1 hg
      have htrim : jsTrim (formatSingleCombination mac c1).2 =
          (formatSingleCombination mac c1).2 := by
        apply jsTrim_eq_self
        · intro ch hch
          exact htws ch (List.mem_of_mem_head? (by simp [hch]))
        · intro ch hch
          exact htws ch (List.mem_of_mem_getLast? (by simp [hch]))
      unfold parseHotkeyString
      rw [htrim, if_neg htne, jsSplitWs_no_ws _ htws, List.map_singleton,
        parseSingle_formatSingle mac c1 hg]
    | cons c2 rest2 =>
      show parseHotkeyString
        (joinSep ' '
          (((c1 :: c2 :: rest2).map (formatSingleCombination mac)).map Prod.snd)) =
        c1 :: c2 :: rest2
      rw [List.map_map]
      simp only [Function.comp_def]
      set toks :=
        (c1 :: c2 :: rest2).map (fun c => (formatSingleCombination mac c).2) with htoks
      have htokprop : ∀ t ∈ toks, t ≠ [] ∧ ∀ ch ∈ t, isWs ch = false := by
        intro t ht
        rcases List.mem_map.mp ht with ⟨c, hc, rfl⟩
        exact ⟨comboId_ne_nil mac c (h c hc), comboId_no_ws mac c (h c hc)⟩
      have h1 : toks =
          (formatSingleCombination mac c1).2 ::
            ((c2 :: rest2).map (fun c => (formatSingleCombination mac c).2)) := by
        simp [htoks]
      have htoksne : toks ≠ [] := by simp [htoks]
      have hjoinne : joinSep ' ' toks ≠ [] :=
        joinSep_ne_nil ' ' toks htoksne (fun t ht => (htokprop t ht).1)
      have htrim : jsTrim (joinSep ' ' toks) = joinSep ' ' toks := by
        apply jsTrim_eq_self
        · intro ch hch
          rw [h1, joinSep_head? ' ' _ _
            (comboId_ne_nil mac c1 (h c1 (by simp)))] at hch
          exact comboId_no_ws mac c1 (h c1 (by simp)) ch
            (List.mem_of_mem_head? (by simp [hch]))
        · intro ch hch
          obtain ⟨last, hlmem, hlast⟩ := joinSep_getLast? ' '
            ((c2 :: rest2).map (fun c => (formatSingleCombination mac c).2))
            ((formatSingleCombination mac c1).2)
            (by
              intro x hx
              rw [← h1] at hx
              exact (htokprop x hx).1)
          rw [h1, hlast] at hch
          have hlmem2 : last ∈ toks := by
            rw [h1]
            exact hlmem
          exact (htokprop last hlmem2).2 ch
            (List.mem_of_mem_getLast? (by simp [hch]))
      unfold parseHotkeyString
      rw [htrim, if_neg hjoinne]
      unfold jsSplitWs
      rw [splitWs_joinSep toks htoksne htokprop false, htoks, List.map_map]
      have hmapped : (c1 :: c2 :: rest2).map
          (parseSingleCombination ∘ fun c => (formatSingleCombination mac c).2) =
          (c1 :: c2 :: rest2).map id := by
        apply List.map_congr_left
        intro c hc
        exact parseSingle_formatSingle mac c (h c hc)
      rw [hmapped, List.map_id]

/-- Witness for C2 (amended) at the concrete sequence `g t`. -/
theorem c2_roundtrip_witness :
    (∀ c ∈ gtSeq, GoodKeyTok c.key) ∧
    parseHotkeyString (formatCombination false gtSeq).id = gtSeq :=
  ⟨by decide, c2_roundtrip_amended false gtSeq (by decide)⟩

/-! ## C7 -/

theorem contains_middle_drop (A B : List JsStr) (lu lk x : JsStr) (hne : x ≠ lu) :
    ((A ++ lu :: B) ++ [lk]).contains x = ((A ++ B) ++ [lk]).contains x := by
  apply Bool.eq_iff_iff.mpr
  rw [contains_iff_mem, contains_iff_mem]
  simp only [List.mem_append, List.mem_cons, List.mem_singleton]
  constructor
  · rintro ((hA | (rfl | hB)) | hk)
    · tauto
    · exact absurd rfl hne
    · tauto
    · tauto
  · rintro ((hA | hB) | hk) <;> tauto

/-- C7.  Parsing is total and lenient: an all-whitespace (or empty) string
parses to the empty sequence; the parsed key is always the last
`+`-fragment; and an unrecognized alias token before the key is dropped
silently — removing it from the combo string leaves the parse result
unchanged.  (Totality itself is structural: `parseHotkeyString` is a total
function of the embedding, with no failure case.) -/
theorem c7_lenient_parsing :
    (∀ s : JsStr, (∀ c ∈ s, isWs c = true) → parseHotkeyString s = []) ∧
    (∀ s : JsStr, (parseSingleCombination s).key = (parseParts s).getLast?.getD []) ∧
    (∀ (ts rest : List JsStr) (u k : JsStr),
      (∀ t ∈ ts ++ u :: rest ++ [k], ∀ ch ∈ t, ch ≠ '+') →
      toLowerStr u ∉ aliasToks →
      parseSingleCombination (joinSep '+' (ts ++ u :: rest ++ [k])) =
        parseSingleCombination (joinSep '+' (ts ++ rest ++ [k]))) := by
  refine ⟨?_, fun s => rfl, ?_⟩
  · intro s hws
    have hdrop : List.dropWhile isWs s = [] :=
      List.dropWhile_eq_nil_iff.mpr hws
    have htrim : jsTrim s = [] := by
      unfold jsTrim
      rw [hdrop]
      rfl
    unfold parseHotkeyString
    rw [if_pos htrim]
  · intro ts rest u k hplus hu
    have hsub : ∀ t ∈ ts ++ rest ++ [k], ∀ ch ∈ t, ch ≠ '+' := by
      intro t ht
      apply hplus t
      simp only [List.mem_append, List.mem_cons, List.mem_singleton] at ht ⊢
      tauto
    have hpp1 := parseParts_joinSep (ts ++ u :: rest ++ [k]) (by simp) hplus
    have hpp2 := parseParts_joinSep (ts ++ rest ++ [k]) (by simp) hsub
    have hshape1 : (ts ++ u :: rest ++ [k]).map toLowerStr =
        (ts.map toLowerStr ++ toLowerStr u :: rest.map toLowerStr) ++
          [toLowerStr k] := by
      simp [List.map_append]
    have hshape2 : (ts ++ rest ++ [k]).map toLowerStr =
        (ts.map toLowerStr ++ rest.map toLowerStr) ++ [toLowerStr k] := by
      simp [List.map_append]
    rw [hshape1] at hpp1
    rw [hshape2] at hpp2
    have hne : ∀ x ∈ aliasToks, x ≠ toLowerStr u :=
      fun x hx heq => hu (heq ▸ hx)
    unfold parseSingleCombination
    rw [hpp1, hpp2, List.getLast?_concat, List.getLast?_concat,
      contains_middle_drop _ _ _ _ _ (hne ctrlTok (by decide)),
      contains_middle_drop _ _ _ _ _ (hne controlTok (by decide)),
      contains_middle_drop _ _ _ _ _ (hne altTok (by decide)),
      contains_middle_drop _ _ _ _ _ (hne optionTok (by decide)),
      contains_middle_drop _ _ _ _ _ (hne shiftTok (by decide)),
      contains_middle_drop _ _ _ _ _ (hne metaTok (by decide)),
      contains_middle_drop _ _ _ _ _ (hne cmdTok (by decide)),
      contains_middle_drop _ _ _ _ _ (hne commandTok (by decide))]

end UseKbd
